import Mathlib

/-!
# Verification of the HIBP breach-collection pipeline (`src/lib.js`)

Shallow embedding of the `HIBP` class from `src/lib.js`: a chainable
query layer over a list of breach records.  JavaScript objects are
modelled as association lists from property names to `JSValue`s,
property access on a missing key yields `JSValue.undef` (JS
`undefined`).  `Array.prototype.sort` is modelled as a stable insertion
sort (ECMAScript 2019 requires `sort` to be stable; for a consistent
comparator the stable sort result is unique, so any stable sort is a
faithful model).  The comparator's result is interpreted the way the
sort algorithm consumes it (`ToNumber` coercion: `true ↦ 1`, `NaN`
treated as equal); a comparator that would throw a `TypeError`
(`.getTime()` on a non-`Date`) is tracked by the `CmpResult.throw`
constructor.
-/

/-- A JavaScript value, restricted to the shapes that occur in breach
records: `undefined`, strings, integers (`PwnCount`), booleans, `Date`
objects (represented by their epoch instant, i.e. `getTime()`), and
arrays of strings (`DataClasses`). -/
inductive JSValue where
  | undef : JSValue
  | str (s : String) : JSValue
  | num (n : Int) : JSValue
  | bool (b : Bool) : JSValue
  | date (t : Int) : JSValue
  | strList (l : List String) : JSValue
deriving DecidableEq, Repr

/-- A breach record: a JS object modelled as an association list of
properties (first binding wins on lookup; the objects built by the
code never have duplicate keys). -/
def Rec : Type := List (String × JSValue)

instance : DecidableEq Rec := by unfold Rec; infer_instance

/-- Property access `obj[key]`: the bound value, or `undefined` when
the property is absent. -/
def getProp (r : Rec) (k : String) : JSValue :=
  match r.find? (fun p => p.1 == k) with
  | some p => p.2
  | none => JSValue.undef

/-- JS `ToNumber` on the values we model, `none` standing for `NaN`
(`undefined → NaN`; numeric-literal strings and arrays, which no code
path feeds to an arithmetic context, are conservatively `NaN`). -/
def toNumber : JSValue → Option Int
  | JSValue.num n => some n
  | JSValue.bool b => some (if b then 1 else 0)
  | JSValue.date t => some t
  | _ => none

/-- `Date.prototype.getTime`: defined exactly on `Date` objects;
`none` means the call throws a `TypeError`. -/
def getTime : JSValue → Option Int
  | JSValue.date t => some t
  | _ => none

/-- JS `String(v)` (the `Date` string format is
implementation-defined in JS; a fixed tag is used here, and no claim
depends on it because string-typed sort keys hold strings on
well-formed records). -/
def jsToString : JSValue → String
  | JSValue.undef => "undefined"
  | JSValue.str s => s
  | JSValue.num n => toString n
  | JSValue.bool b => if b then "true" else "false"
  | JSValue.date t => "Date " ++ toString t
  | JSValue.strList l => String.intercalate "," l

/-- `String.prototype.localeCompare`, modelled as the comparison of
the linear order on strings: negative, zero, or positive. -/
def localeCompare (a b : String) : Int :=
  if a < b then -1 else if b < a then 1 else 0

/-- NaN-propagating subtraction on JS numbers. -/
def jsSub : Option Int → Option Int → Option Int
  | some a, some b => some (a - b)
  | _, _ => none

/-- NaN-propagating multiplication on JS numbers. -/
def jsMul : Option Int → Option Int → Option Int
  | some a, some b => some (a * b)
  | _, _ => none

/-- The value an invocation of the sort comparator `fn` produces:
a number, `NaN`, the literal `true` of the `default:` branch, or a
thrown `TypeError` (from `.getTime()` on a non-`Date`). -/
inductive CmpResult where
  | ok (n : Int) : CmpResult
  | nan : CmpResult
  | trueVal : CmpResult
  | throw : CmpResult
deriving DecidableEq, Repr

/-- Package a JS-number result (`none` = `NaN`) as a `CmpResult`. -/
def CmpResult.ofNum : Option Int → CmpResult
  | some n => CmpResult.ok n
  | none => CmpResult.nan

/-- How `Array.prototype.sort` consumes one comparator result when
deciding whether `a` may stay before `b`: a number `n` keeps `a` first
iff `n ≤ 0`; `NaN` counts as `0` (keep, sort is stable); `true` is
coerced to `1 > 0` (swap).  A throwing comparison aborts the JS sort —
the model is total, and the safety theorem shows `throw` is unreachable
on well-formed data. -/
def cmpResultLE : CmpResult → Bool
  | CmpResult.ok n => n ≤ 0
  | CmpResult.nan => true
  | CmpResult.trueVal => false
  | CmpResult.throw => true

/-- The `direction` argument of `sort`: a number or a string. -/
inductive JSDir where
  | num (n : Int) : JSDir
  | str (s : String) : JSDir
deriving DecidableEq, Repr

/-- JS `String(direction)`. -/
def JSDir.toStr : JSDir → String
  | JSDir.num n => toString n
  | JSDir.str s => s

/-- `ToNumber` of the direction when the comparator multiplies by it
(`none` = `NaN`; numeric-literal strings, which no caller passes, are
conservatively `NaN` — `"asc"`/`"desc"` have already been replaced by
the switch). -/
def JSDir.toNum : JSDir → Option Int
  | JSDir.num n => some n
  | JSDir.str _ => none

/-- `.toLowerCase()`: per-character lowercasing. -/
def jsToLower (s : String) : String :=
  String.mk (s.data.map Char.toLower)

/-- The `switch (String(direction).toLowerCase())` at the top of
`sort`: `"asc" → 1`, `"desc" → -1`, anything else left unchanged. -/
def parseDirection (direction : JSDir) : JSDir :=
  match jsToLower (JSDir.toStr direction) with
  | "asc" => JSDir.num 1
  | "desc" => JSDir.num (-1)
  | _ => direction

/-- `key.startsWith("-")`. -/
def startsWithMinus (s : String) : Bool :=
  s.data.head? = some '-'

/-- The regex replace in `sort` (pattern: one literal minus, no global
flag, empty replacement): remove the first `-` of the string. -/
def removeFirstMinusAux : List Char → List Char
  | [] => []
  | c :: cs => if c = '-' then cs else c :: removeFirstMinusAux cs

/-- String wrapper of `removeFirstMinusAux`. -/
def removeFirstMinus (s : String) : String :=
  String.mk (removeFirstMinusAux s.data)

namespace HIBP

/-- `HIBP.types` as the entry list of the source (`Object.entries`
order); the `Map` lookup is the first matching entry. -/
def typesList : List (String × String) :=
  [("AddedDate", "date"),
   ("BreachDate", "date"),
   ("Domain", "string"),
   ("IsFabricated", "boolean"),
   ("IsRetired", "boolean"),
   ("IsSensitive", "boolean"),
   ("IsSpamList", "boolean"),
   ("IsVerified", "boolean"),
   ("ModifiedDate", "date"),
   ("Name", "string"),
   ("PwnCount", "number")]

/-- `HIBP.types.get(key)`. -/
def types (key : String) : Option String :=
  (typesList.find? (fun p => p.1 == key)).map (fun p => p.2)

/-- The comparator `fn` closed over `sortType`, `key` and `direction`
(`sort`, lines 223–243 of `src/lib.js`).  The `date` case converts both
values with `.getTime()` (throwing on non-`Date`s) and falls through to
the numeric subtraction; `boolean`/`number` subtract the `ToNumber`
coercions; `string` compares `String(aValue).localeCompare(bValue)`;
an unknown `sortType` returns the literal `true`. -/
def compareFn (sortType : Option String) (key : String) (direction : JSDir)
    (a b : Rec) : CmpResult :=
  let aValue := getProp a key
  let bValue := getProp b key
  match sortType with
  | some "date" =>
    match getTime aValue, getTime bValue with
    | some x, some y =>
      CmpResult.ofNum (jsMul (jsSub (some x) (some y)) (JSDir.toNum direction))
    | _, _ => CmpResult.throw
  | some "boolean" =>
    CmpResult.ofNum (jsMul (jsSub (toNumber aValue) (toNumber bValue)) (JSDir.toNum direction))
  | some "number" =>
    CmpResult.ofNum (jsMul (jsSub (toNumber aValue) (toNumber bValue)) (JSDir.toNum direction))
  | some "string" =>
    CmpResult.ofNum (jsMul (some (localeCompare (jsToString aValue) (jsToString bValue)))
      (JSDir.toNum direction))
  | _ => CmpResult.trueVal

end HIBP

/-- Insert into a sorted list, before the first element the comparator
does not keep the inserted element ahead of. -/
def jsOrderedInsert (le : α → α → Bool) (a : α) : List α → List α
  | [] => [a]
  | b :: l => if le a b then a :: b :: l else b :: jsOrderedInsert le a l

/-- Stable insertion sort: the model of `Array.prototype.sort(fn)` with
`le a b = cmpResultLE (fn a b)` (ES2019 sort is stable; on a consistent
comparator every stable sort computes the same list). -/
def jsSort (le : α → α → Bool) : List α → List α
  | [] => []
  | a :: l => jsOrderedInsert le a (jsSort le l)

/-- The mutable state of an `HIBP` instance after `getBreaches`
resolved: `_breaches` (the working set) and `_origBreaches` (the
snapshot `[...this._breaches]` taken at load time). -/
structure HIBPState where
  breaches : List Rec
  origBreaches : List Rec
deriving DecidableEq

namespace HIBP

/-- The state `getBreaches` leaves behind, given the (validated)
record list of the response: `_breaches` is the list, `_origBreaches`
a copy of it.  The network fetch and Joi validation themselves are
outside the model. -/
def loadState (data : List Rec) : HIBPState :=
  { breaches := data, origBreaches := data }

/-- `reset()`: `this._breaches = [...this._origBreaches]`. -/
def reset (s : HIBPState) : HIBPState :=
  { s with breaches := s.origBreaches }

/-- JS truthiness of the `limit` argument (`undefined` and `0` are
falsy, every other integer truthy). -/
def jsTruthy : Option Int → Bool
  | none => false
  | some n => n != 0

/-- `Array.prototype.slice(0, end)`: a negative `end` counts from the
end of the array (`max(length + end, 0)` elements), a non-negative one
is clamped to the length. -/
def jsSliceTo (l : List α) (e : Int) : List α :=
  if e < 0 then l.take ((l.length : Int) + e).toNat else l.take e.toNat

/-- `breaches(limit)`: the terminal call.  A truthy limit returns
`this._breaches.slice(0, Number(limit))`, otherwise the whole working
set. -/
def breaches (s : HIBPState) (limit : Option Int := none) : List Rec :=
  if jsTruthy limit then jsSliceTo s.breaches ((limit).getD 0) else s.breaches

/-- `filter(fn)`: replace the working set with its filtered
subsequence (the default argument is the constant-true predicate). -/
def filter (s : HIBPState) (fn : Rec → Bool := fun _ => true) : HIBPState :=
  { s with breaches := s.breaches.filter fn }

/-- `_boolProp(name, bool)`: filter on `breach[name] === !!bool`
(strict equality against a boolean). -/
def boolProp (s : HIBPState) (flag : String) (bool : Bool := true) : HIBPState :=
  filter s (fun breach => getProp breach flag == JSValue.bool bool)

/-- `isFabricated(bool = true)`. -/
def isFabricated (s : HIBPState) (bool : Bool := true) : HIBPState :=
  boolProp s "IsFabricated" bool

/-- `isRetired(bool = true)`. -/
def isRetired (s : HIBPState) (bool : Bool := true) : HIBPState :=
  boolProp s "IsRetired" bool

/-- `isSensitive(bool = true)`. -/
def isSensitive (s : HIBPState) (bool : Bool := true) : HIBPState :=
  boolProp s "IsSensitive" bool

/-- `isSpamList(bool = true)`. -/
def isSpamList (s : HIBPState) (bool : Bool := true) : HIBPState :=
  boolProp s "IsSpamList" bool

/-- `isVerified(bool = true)`. -/
def isVerified (s : HIBPState) (bool : Bool := true) : HIBPState :=
  boolProp s "IsVerified" bool

/-- `breach.DataClasses.includes(dataClass)` including the throwing
cases: `none` is a thrown `TypeError` (`.includes` on `undefined` or a
non-object); on a string JS does a substring search, on a string array
a membership test. -/
def dataClassPredE (dataClass : String) (breach : Rec) : Option Bool :=
  match getProp breach "DataClasses" with
  | JSValue.strList l => some (l.contains dataClass)
  | JSValue.str s => some (decide (dataClass.data <:+: s.data))
  | _ => none

/-- Total version of `dataClassPredE` used by the state transformer
(the `none` case cannot occur on well-formed records — see the safety
theorem — and is defaulted to `false`). -/
def dataClassPred (dataClass : String) (breach : Rec) : Bool :=
  (dataClassPredE dataClass breach).getD false

/-- `hasDataClass(...dataClasses)`: one `filter` per requested class,
applied in order (the argument list is the already-flattened rest
parameter). -/
def hasDataClass (s : HIBPState) (dataClasses : List String) : HIBPState :=
  dataClasses.foldl (fun acc dataClass => filter acc (dataClassPred dataClass)) s

/-- `hasDomain(domain)`: with an argument, keep `breach.Domain ===
domain` (strict equality against the string); with the argument
omitted (`undefined`), keep `breach.Domain !== ""`. -/
def hasDomain (s : HIBPState) (domain : Option String := none) : HIBPState :=
  match domain with
  | some d => filter s (fun breach => getProp breach "Domain" == JSValue.str d)
  | none => filter s (fun breach => getProp breach "Domain" != JSValue.str "")

/-- `name(...names)`: keep records with `names.includes(breach.Name)`
(the argument list is the already-flattened rest parameter; a
non-string `Name` is never `===` to a string). -/
def name (s : HIBPState) (names : List String) : HIBPState :=
  filter s (fun breach =>
    match getProp breach "Name" with
    | JSValue.str n => names.contains n
    | _ => false)

/-- `pluck(...props)`: rebuild every record with exactly the requested
properties, in request order, reading `breach[prop]` (hence `undefined`
for an absent property). -/
def pluck (s : HIBPState) (props : List String) : HIBPState :=
  { s with breaches := s.breaches.map (fun breach =>
      (props.map (fun prop => (prop, getProp breach prop)) : Rec)) }

/-- `sort(key = "AddedDate", direction = 1)`: run the direction
switch, strip a leading `-` from the key forcing descending order,
look the key up in `HIBP.types`, and stable-sort the working set with
the comparator. -/
def sort (s : HIBPState) (key : String := "AddedDate")
    (direction : JSDir := JSDir.num 1) : HIBPState :=
  let direction1 := parseDirection direction
  let key2 := if startsWithMinus key then removeFirstMinus key else key
  let direction2 := if startsWithMinus key then JSDir.num (-1) else direction1
  let sortType := types key2
  { s with breaches :=
      jsSort (fun a b => cmpResultLE (compareFn sortType key2 direction2 a b)) s.breaches }

end HIBP

/-- One chain call of the fluent API (the function-valued `filter`
constructor carries an arbitrary predicate, as `filter(fn)` does). -/
inductive ChainOp where
  | filter (fn : Rec → Bool) : ChainOp
  | isFabricated (bool : Bool) : ChainOp
  | isRetired (bool : Bool) : ChainOp
  | isSensitive (bool : Bool) : ChainOp
  | isSpamList (bool : Bool) : ChainOp
  | isVerified (bool : Bool) : ChainOp
  | hasDataClass (dataClasses : List String) : ChainOp
  | hasDomain (domain : Option String) : ChainOp
  | name (names : List String) : ChainOp
  | pluck (props : List String) : ChainOp
  | sort (key : String) (direction : JSDir) : ChainOp

/-- Interpret one chain call on the instance state. -/
def applyChainOp (s : HIBPState) : ChainOp → HIBPState
  | ChainOp.filter fn => HIBP.filter s fn
  | ChainOp.isFabricated b => HIBP.isFabricated s b
  | ChainOp.isRetired b => HIBP.isRetired s b
  | ChainOp.isSensitive b => HIBP.isSensitive s b
  | ChainOp.isSpamList b => HIBP.isSpamList s b
  | ChainOp.isVerified b => HIBP.isVerified s b
  | ChainOp.hasDataClass cs => HIBP.hasDataClass s cs
  | ChainOp.hasDomain d => HIBP.hasDomain s d
  | ChainOp.name ns => HIBP.name s ns
  | ChainOp.pluck ps => HIBP.pluck s ps
  | ChainOp.sort k d => HIBP.sort s k d

/-- Interpret a whole chain, left to right. -/
def applyChain (s : HIBPState) (ops : List ChainOp) : HIBPState :=
  ops.foldl applyChainOp s

/-! ## Well-formedness (the shape declared by the Joi schema) -/

/-- Is the value a string? -/
def isStrV : JSValue → Bool
  | JSValue.str _ => true
  | _ => false

/-- Is the value a `Date`? -/
def isDateV : JSValue → Bool
  | JSValue.date _ => true
  | _ => false

/-- Is the value a boolean? -/
def isBoolV : JSValue → Bool
  | JSValue.bool _ => true
  | _ => false

/-- Is the value an integer? -/
def isNumV : JSValue → Bool
  | JSValue.num _ => true
  | _ => false

/-- Is the value an array of strings? -/
def isStrListV : JSValue → Bool
  | JSValue.strList _ => true
  | _ => false

/-- A well-formed breach record, as the schema declares the typed
fields: `Name`/`Domain` strings, the three dates `Date`s, `PwnCount`
an integer, `DataClasses` an array of strings, the five `Is*` flags
booleans.  (A decidable predicate: every conjunct is a boolean
check.) -/
def WFRec (r : Rec) : Prop :=
  isStrV (getProp r "Name") = true ∧ isStrV (getProp r "Domain") = true ∧
  isDateV (getProp r "AddedDate") = true ∧ isDateV (getProp r "BreachDate") = true ∧
  isDateV (getProp r "ModifiedDate") = true ∧ isNumV (getProp r "PwnCount") = true ∧
  isStrListV (getProp r "DataClasses") = true ∧
  isBoolV (getProp r "IsVerified") = true ∧ isBoolV (getProp r "IsFabricated") = true ∧
  isBoolV (getProp r "IsSensitive") = true ∧ isBoolV (getProp r "IsRetired") = true ∧
  isBoolV (getProp r "IsSpamList") = true

instance (r : Rec) : Decidable (WFRec r) := by unfold WFRec; infer_instance

/-- The shape a value of declared semantic type `t` has. -/
def typedValue (t : String) (v : JSValue) : Prop :=
  match t with
  | "date" => ∃ x, v = JSValue.date x
  | "boolean" => ∃ b, v = JSValue.bool b
  | "number" => ∃ n, v = JSValue.num n
  | "string" => ∃ s, v = JSValue.str s
  | _ => False

/-! ## Direction-free comparison value of a known key -/

/-- Numeric value of a record at a key (`0` as a don't-care default
for values with no numeric coercion). -/
def numVal (key : String) (r : Rec) : Int :=
  (toNumber (getProp r key)).getD 0

/-- The direction-independent comparison the `sort` comparator
computes for a key of declared type `t`: `localeCompare` of the
stringifications for `string`, difference of the numeric values
otherwise (`date` keys compare by `.getTime()`, which coincides with
the numeric coercion of a `Date`). -/
def keyBaseCmp (t : String) (key : String) (a b : Rec) : Int :=
  if t = "string" then
    localeCompare (jsToString (getProp a key)) (jsToString (getProp b key))
  else
    numVal key a - numVal key b

/-- Spec-side predicate: the record's `Domain` field is a non-empty
string. -/
def domainNonEmpty (r : Rec) : Bool :=
  match getProp r "Domain" with
  | JSValue.str d => d != ""
  | _ => false

/-- The record's `DataClasses` sequence (empty for a record without
one; the claims about it assume well-formed records). -/
def dcList (r : Rec) : List String :=
  match getProp r "DataClasses" with
  | JSValue.strList l => l
  | _ => []

/-- A schema-conforming breach record fixture. -/
def mkBreach (nm dom : String) (added pwn : Int) (ver : Bool) (dc : List String) : Rec :=
  [("Name", JSValue.str nm), ("Domain", JSValue.str dom),
   ("AddedDate", JSValue.date added), ("BreachDate", JSValue.date (added - 10)),
   ("ModifiedDate", JSValue.date (added + 10)), ("PwnCount", JSValue.num pwn),
   ("DataClasses", JSValue.strList dc), ("IsVerified", JSValue.bool ver),
   ("IsFabricated", JSValue.bool false), ("IsSensitive", JSValue.bool false),
   ("IsRetired", JSValue.bool false), ("IsSpamList", JSValue.bool false)]

/-- Fixture record. -/
def breachA : Rec :=
  mkBreach "Adobe" "adobe.com" 100 152000000 true ["email-addresses", "names"]

/-- Fixture record. -/
def breachB : Rec :=
  mkBreach "Estonia" "" 200 655000 true ["names", "job-titles"]

/-- Fixture record (same `PwnCount` as `breachB`). -/
def breachC : Rec :=
  mkBreach "LinkedIn" "linkedin.com" 300 655000 false ["email-addresses"]

lemma localeCompare_nonpos {a b : String} : localeCompare a b ≤ 0 ↔ a ≤ b := by
  unfold localeCompare
  rcases lt_trichotomy a b with h | h | h
  · simp [h, le_of_lt h]
  · simp [h, lt_irrefl]
  · simp [h, not_lt_of_lt h, not_le_of_lt h]

lemma localeCompare_swap (a b : String) : localeCompare a b = -(localeCompare b a) := by
  unfold localeCompare
  rcases lt_trichotomy a b with h | h | h
  · simp [h, not_lt_of_lt h]
  · simp [h, lt_irrefl]
  · simp [h, not_lt_of_lt h]

lemma localeCompare_eq_zero {a b : String} : localeCompare a b = 0 ↔ a = b := by
  unfold localeCompare
  rcases lt_trichotomy a b with h | h | h
  · simp [h, ne_of_lt h]
  · simp [h, lt_irrefl]
  · simp [h, not_lt_of_lt h, (ne_of_lt h).symm]

lemma keyBaseCmp_swap (t key : String) (a b : Rec) :
    keyBaseCmp t key a b = -(keyBaseCmp t key b a) := by
  unfold keyBaseCmp
  split
  · exact localeCompare_swap _ _
  · ring

lemma keyBaseCmp_trans {t key : String} {a b c : Rec}
    (h₁ : keyBaseCmp t key a b ≤ 0) (h₂ : keyBaseCmp t key b c ≤ 0) :
    keyBaseCmp t key a c ≤ 0 := by
  unfold keyBaseCmp at *
  split at h₁ <;> rename_i ht
  · simp only [if_pos ht] at h₂ ⊢
    exact localeCompare_nonpos.mpr
      (le_trans (localeCompare_nonpos.mp h₁) (localeCompare_nonpos.mp h₂))
  · simp only [if_neg ht] at h₂ ⊢
    omega

lemma keyBaseCmp_total (t key : String) (a b : Rec) :
    keyBaseCmp t key a b ≤ 0 ∨ keyBaseCmp t key b a ≤ 0 := by
  have h := keyBaseCmp_swap t key a b
  omega

lemma isStrV_iff {v : JSValue} : isStrV v = true ↔ ∃ s, v = JSValue.str s := by
  cases v <;> simp [isStrV]

lemma isDateV_iff {v : JSValue} : isDateV v = true ↔ ∃ x, v = JSValue.date x := by
  cases v <;> simp [isDateV]

lemma isBoolV_iff {v : JSValue} : isBoolV v = true ↔ ∃ b, v = JSValue.bool b := by
  cases v <;> simp [isBoolV]

lemma isNumV_iff {v : JSValue} : isNumV v = true ↔ ∃ n, v = JSValue.num n := by
  cases v <;> simp [isNumV]

lemma isStrListV_iff {v : JSValue} : isStrListV v = true ↔ ∃ l, v = JSValue.strList l := by
  cases v <;> simp [isStrListV]

lemma types_mem {key t : String} (h : HIBP.types key = some t) :
    (key, t) ∈ HIBP.typesList := by
  unfold HIBP.types at h
  rcases Option.map_eq_some'.mp h with ⟨pr, hfind, h2⟩
  have h1 : pr.1 = key := by simpa using List.find?_some hfind
  have hm := List.mem_of_find?_eq_some hfind
  have hpr : pr = (key, t) := by
    cases pr
    simp_all
  rwa [hpr] at hm

lemma types_not_minus {key t : String} (h : HIBP.types key = some t) :
    startsWithMinus key = false := by
  have hm := types_mem h
  have hall : ∀ p ∈ HIBP.typesList, startsWithMinus p.1 = false := by decide
  exact hall _ hm

lemma types_t_cases {key t : String} (h : HIBP.types key = some t) :
    t = "date" ∨ t = "boolean" ∨ t = "number" ∨ t = "string" := by
  have hm := types_mem h
  have hall : ∀ p ∈ HIBP.typesList,
      p.2 = "date" ∨ p.2 = "boolean" ∨ p.2 = "number" ∨ p.2 = "string" := by decide
  exact hall _ hm

/-- On well-formed records, the comparator of a known key computes the
direction-free comparison value times the numeric direction. -/
lemma compareFn_known {key t : String} {a b : Rec} (hk : HIBP.types key = some t)
    (ha : typedValue t (getProp a key)) (hb : typedValue t (getProp b key)) (d : Int) :
    HIBP.compareFn (some t) key (JSDir.num d) a b
      = CmpResult.ok (keyBaseCmp t key a b * d) := by
  rcases types_t_cases hk with rfl | rfl | rfl | rfl
  · obtain ⟨x, hx⟩ := ha
    obtain ⟨y, hy⟩ := hb
    simp [HIBP.compareFn, hx, hy, getTime, jsSub, jsMul, JSDir.toNum,
      CmpResult.ofNum, keyBaseCmp, numVal, toNumber]
  · obtain ⟨p, hp⟩ := ha
    obtain ⟨q, hq⟩ := hb
    simp [HIBP.compareFn, hp, hq, jsSub, jsMul, JSDir.toNum,
      CmpResult.ofNum, keyBaseCmp, numVal, toNumber]
  · obtain ⟨m, hm⟩ := ha
    obtain ⟨n, hn⟩ := hb
    simp [HIBP.compareFn, hm, hn, jsSub, jsMul, JSDir.toNum,
      CmpResult.ofNum, keyBaseCmp, numVal, toNumber]
  · obtain ⟨x, hx⟩ := ha
    obtain ⟨y, hy⟩ := hb
    simp [HIBP.compareFn, hx, hy, jsMul, JSDir.toNum,
      CmpResult.ofNum, keyBaseCmp, jsToString]

/-- How the sort consumes the comparator of a known key on well-formed
records: keep the pair in order exactly when the signed comparison
value is nonpositive. -/
lemma cmpResultLE_known {key t : String} {a b : Rec} (hk : HIBP.types key = some t)
    (ha : typedValue t (getProp a key)) (hb : typedValue t (getProp b key)) (d : Int) :
    cmpResultLE (HIBP.compareFn (some t) key (JSDir.num d) a b)
      = decide (keyBaseCmp t key a b * d ≤ 0) := by
  rw [compareFn_known hk ha hb d]
  simp [cmpResultLE]

/-- Two records with equal values at a known key are kept in order by
the comparator, whatever the direction evaluates to (a numeric
direction multiplies `0`, a non-numeric one yields `NaN`, which the
sort treats as `0`). -/
lemma cmpResultLE_eq_values {key t : String} {a b : Rec} (hk : HIBP.types key = some t)
    (ha : typedValue t (getProp a key)) (hb : typedValue t (getProp b key))
    (heq : getProp a key = getProp b key) (dir : JSDir) :
    cmpResultLE (HIBP.compareFn (some t) key dir a b) = true := by
  rcases types_t_cases hk with rfl | rfl | rfl | rfl
  · obtain ⟨x, hx⟩ := ha
    rw [heq] at hx
    cases hdir : JSDir.toNum dir <;>
      simp [HIBP.compareFn, hx, heq, getTime, jsSub, jsMul, hdir,
        CmpResult.ofNum, cmpResultLE]
  · obtain ⟨p, hp⟩ := ha
    rw [heq] at hp
    cases hdir : JSDir.toNum dir <;>
      simp [HIBP.compareFn, hp, heq, jsSub, jsMul, hdir, toNumber,
        CmpResult.ofNum, cmpResultLE]
  · obtain ⟨n, hn⟩ := ha
    rw [heq] at hn
    cases hdir : JSDir.toNum dir <;>
      simp [HIBP.compareFn, hn, heq, jsSub, jsMul, hdir, toNumber,
        CmpResult.ofNum, cmpResultLE]
  · obtain ⟨s, hs⟩ := ha
    rw [heq] at hs
    cases hdir : JSDir.toNum dir <;>
      simp [HIBP.compareFn, hs, heq, jsMul, hdir, localeCompare,
        CmpResult.ofNum, cmpResultLE]

/-- On well-formed records, a zero comparison value at a known key
means the two key values are literally equal. -/
lemma keyBaseCmp_eq_zero {key t : String} {a b : Rec} (hk : HIBP.types key = some t)
    (ha : typedValue t (getProp a key)) (hb : typedValue t (getProp b key))
    (h0 : keyBaseCmp t key a b = 0) : getProp a key = getProp b key := by
  rcases types_t_cases hk with rfl | rfl | rfl | rfl
  · obtain ⟨x, hx⟩ := ha
    obtain ⟨y, hy⟩ := hb
    simp [keyBaseCmp, numVal, toNumber, hx, hy] at h0
    have hxy : x = y := by omega
    simp [hx, hy, hxy]
  · obtain ⟨p, hp⟩ := ha
    obtain ⟨q, hq⟩ := hb
    simp [keyBaseCmp, numVal, toNumber, hp, hq] at h0
    cases p <;> cases q <;> simp_all [hp, hq]
  · obtain ⟨m, hm⟩ := ha
    obtain ⟨n, hn⟩ := hb
    simp [keyBaseCmp, numVal, toNumber, hm, hn] at h0
    have hmn : m = n := by omega
    simp [hm, hn, hmn]
  · obtain ⟨x, hx⟩ := ha
    obtain ⟨y, hy⟩ := hb
    simp [keyBaseCmp, jsToString, hx, hy] at h0
    have hxy : x = y := localeCompare_eq_zero.mp h0
    simp [hx, hy, hxy]

lemma startsWithMinus_append_minus (key : String) :
    startsWithMinus ("-" ++ key) = true := by
  simp [startsWithMinus, String.data_append]

lemma removeFirstMinus_append_minus (key : String) :
    removeFirstMinus ("-" ++ key) = key := by
  unfold removeFirstMinus
  have hdata : ("-" ++ key).data = '-' :: key.data := by
    rw [String.data_append]
    rfl
  rw [hdata]
  simp [removeFirstMinusAux]

/-- Unfolding `sort` when the key is in the type table (hence has no
leading minus). -/
lemma sort_breaches_known {key t : String} (hk : HIBP.types key = some t)
    (s : HIBPState) (dir : JSDir) :
    (HIBP.sort s key dir).breaches
      = jsSort (fun a b =>
          cmpResultLE (HIBP.compareFn (some t) key (parseDirection dir) a b)) s.breaches := by
  simp [HIBP.sort, types_not_minus hk, hk]

/-- Unfolding `sort` on a minus-prefixed known key: the minus is
stripped and the direction forced to `-1`. -/
lemma sort_breaches_minus {key t : String} (hk : HIBP.types key = some t)
    (s : HIBPState) (dir : JSDir) :
    (HIBP.sort s ("-" ++ key) dir).breaches
      = jsSort (fun a b =>
          cmpResultLE (HIBP.compareFn (some t) key (JSDir.num (-1)) a b)) s.breaches := by
  simp [HIBP.sort, startsWithMinus_append_minus, removeFirstMinus_append_minus, hk]

/-! ## Theory of the stable sort model -/

lemma jsOrderedInsert_perm (le : α → α → Bool) (a : α) (l : List α) :
    (jsOrderedInsert le a l).Perm (a :: l) := by
  induction l with
  | nil => simp [jsOrderedInsert]
  | cons b m ih =>
    simp only [jsOrderedInsert]
    split
    · exact List.Perm.refl _
    · exact (ih.cons b).trans (List.Perm.swap a b m)

lemma jsSort_perm (le : α → α → Bool) (l : List α) : (jsSort le l).Perm l := by
  induction l with
  | nil => simp [jsSort]
  | cons a m ih =>
    simp only [jsSort]
    exact (jsOrderedInsert_perm le a _).trans (ih.cons a)

lemma mem_jsOrderedInsert {le : α → α → Bool} {a x : α} {l : List α} :
    x ∈ jsOrderedInsert le a l ↔ x = a ∨ x ∈ l := by
  rw [(jsOrderedInsert_perm le a l).mem_iff]
  simp

lemma mem_jsSort {le : α → α → Bool} {x : α} {l : List α} :
    x ∈ jsSort le l ↔ x ∈ l :=
  (jsSort_perm le l).mem_iff

lemma jsOrderedInsert_pairwise (le : α → α → Bool) (a : α) :
    ∀ (l : List α), l.Pairwise (fun x y => le x y = true) →
      (∀ b ∈ l, le a b = true ∨ le b a = true) →
      (∀ b ∈ l, ∀ c ∈ l, le a b = true → le b c = true → le a c = true) →
      (jsOrderedInsert le a l).Pairwise (fun x y => le x y = true) := by
  intro l
  induction l with
  | nil => intro _ _ _; simp [jsOrderedInsert]
  | cons b m ih =>
    intro hp htot htrans
    obtain ⟨hb, hm⟩ := List.pairwise_cons.mp hp
    simp only [jsOrderedInsert]
    split <;> rename_i hab
    · refine List.pairwise_cons.mpr ⟨?_, hp⟩
      intro x hx
      rcases List.mem_cons.mp hx with rfl | hx
      · exact hab
      · exact htrans b (by simp) x (by simp [hx]) hab (hb x hx)
    · refine List.pairwise_cons.mpr ⟨?_, ?_⟩
      · intro x hx
        rcases mem_jsOrderedInsert.mp hx with rfl | hx
        · rcases htot b (by simp) with h | h
          · exact absurd h hab
          · exact h
        · exact hb x hx
      · exact ih hm (fun c hc => htot c (by simp [hc]))
          (fun c hc d hd => htrans c (by simp [hc]) d (by simp [hd]))

lemma jsSort_pairwise (le : α → α → Bool) :
    ∀ (l : List α),
      (∀ a ∈ l, ∀ b ∈ l, le a b = true ∨ le b a = true) →
      (∀ a ∈ l, ∀ b ∈ l, ∀ c ∈ l, le a b = true → le b c = true → le a c = true) →
      (jsSort le l).Pairwise (fun x y => le x y = true) := by
  intro l
  induction l with
  | nil => intro _ _; simp [jsSort]
  | cons a m ih =>
    intro htot htrans
    simp only [jsSort]
    have hmem : ∀ x ∈ jsSort le m, x ∈ m := fun x hx => mem_jsSort.mp hx
    apply jsOrderedInsert_pairwise
    · exact ih (fun x hx y hy => htot x (by simp [hx]) y (by simp [hy]))
        (fun x hx y hy z hz =>
          htrans x (by simp [hx]) y (by simp [hy]) z (by simp [hz]))
    · exact fun b hb => htot a (by simp) b (by simp [hmem b hb])
    · exact fun b hb c hc =>
        htrans a (by simp) b (by simp [hmem b hb]) c (by simp [hmem c hc])

lemma pairwise_imp_mem {r s : α → α → Prop} :
    ∀ {l : List α}, (∀ a ∈ l, ∀ b ∈ l, r a b → s a b) → l.Pairwise r → l.Pairwise s := by
  intro l
  induction l with
  | nil => intro _ _; exact List.Pairwise.nil
  | cons a m ih =>
    intro h hp
    obtain ⟨ha, hm⟩ := List.pairwise_cons.mp hp
    refine List.pairwise_cons.mpr
      ⟨fun b hb => h a (by simp) b (by simp [hb]) (ha b hb),
       ih (fun x hx y hy => h x (by simp [hx]) y (by simp [hy])) hm⟩

/-- A permutation between two lists sorted by `r` is the identity as
soon as `r` is antisymmetric on the elements involved. -/
lemma perm_pairwise_eq {r : α → α → Prop} :
    ∀ {l₁ l₂ : List α}, l₁.Perm l₂ → l₁.Pairwise r → l₂.Pairwise r →
      (∀ a ∈ l₁, ∀ b ∈ l₁, r a b → r b a → a = b) → l₁ = l₂ := by
  intro l₁
  induction l₁ with
  | nil => intro l₂ hp _ _ _; exact hp.nil_eq
  | cons a t ih =>
    intro l₂ hp hpw1 hpw2 hanti
    cases l₂ with
    | nil => exact absurd hp.symm.nil_eq (by simp)
    | cons b t₂ =>
      have hab : a = b := by
        by_contra hne
        have hain : a ∈ b :: t₂ := hp.mem_iff.mp (by simp)
        have hbin : b ∈ a :: t := hp.mem_iff.mpr (by simp)
        have hat2 : a ∈ t₂ := by
          rcases List.mem_cons.mp hain with h | h
          · exact absurd h hne
          · exact h
        have hbt : b ∈ t := by
          rcases List.mem_cons.mp hbin with h | h
          · exact absurd h.symm hne
          · exact h
        have hrab : r a b := (List.pairwise_cons.mp hpw1).1 b hbt
        have hrba : r b a := (List.pairwise_cons.mp hpw2).1 a hat2
        exact hne (hanti a (by simp) b (by simp [hbt]) hrab hrba)
      subst hab
      have htail := ih hp.cons_inv (List.pairwise_cons.mp hpw1).2
        (List.pairwise_cons.mp hpw2).2
        (fun x hx y hy => hanti x (by simp [hx]) y (by simp [hy]))
      rw [htail]

lemma filter_jsOrderedInsert_pos (le : α → α → Bool) (p : α → Bool) (a : α) :
    ∀ (l : List α), p a = true → (∀ b ∈ l, p b = true → le a b = true) →
      (jsOrderedInsert le a l).filter p = a :: l.filter p := by
  intro l
  induction l with
  | nil => intro hpa _; simp [jsOrderedInsert, hpa]
  | cons b m ih =>
    intro hpa h
    simp only [jsOrderedInsert]
    split <;> rename_i hab
    · simp [List.filter_cons, hpa]
    · have hpb : p b = false := by
        cases hpb : p b
        · rfl
        · exact absurd (h b (by simp) hpb) hab
      rw [List.filter_cons, if_neg (by simp [hpb]),
        ih hpa (fun c hc hpc => h c (by simp [hc]) hpc),
        List.filter_cons, if_neg (by simp [hpb])]

lemma filter_jsOrderedInsert_neg (le : α → α → Bool) (p : α → Bool) (a : α) :
    ∀ (l : List α), p a = false →
      (jsOrderedInsert le a l).filter p = l.filter p := by
  intro l
  induction l with
  | nil => intro hpa; simp [jsOrderedInsert, hpa]
  | cons b m ih =>
    intro hpa
    simp only [jsOrderedInsert]
    split
    · simp [List.filter_cons, hpa]
    · rw [List.filter_cons, ih hpa, List.filter_cons]

/-- Stability of the sort model, phrased on subsequences: the records
a predicate keeps come out in the order they went in, provided the
comparator keeps any two kept records in order. -/
lemma jsSort_filter_eq (le : α → α → Bool) (p : α → Bool) :
    ∀ (l : List α),
      (∀ a ∈ l, ∀ b ∈ l, p a = true → p b = true → le a b = true) →
      (jsSort le l).filter p = l.filter p := by
  intro l
  induction l with
  | nil => intro _; simp [jsSort]
  | cons a m ih =>
    intro h
    simp only [jsSort]
    have ihm := ih (fun x hx y hy => h x (by simp [hx]) y (by simp [hy]))
    cases hpa : p a
    · rw [filter_jsOrderedInsert_neg le p a _ hpa, ihm,
        List.filter_cons, if_neg (by simp [hpa])]
    · rw [filter_jsOrderedInsert_pos le p a _ hpa
        (fun b hb hpb => h a (by simp) b (by simp [mem_jsSort.mp hb]) hpa hpb),
        ihm, List.filter_cons, if_pos (by simp [hpa])]

/-- On a well-formed record, a key the type table knows holds a value
of the declared shape. -/
lemma WFRec_typedValue {key t : String} {r : Rec} (hk : HIBP.types key = some t)
    (hr : WFRec r) : typedValue t (getProp r key) := by
  have hm := types_mem hk
  obtain ⟨hName, hDom, hAdd, hBre, hMod, hPwn, hDC, hVer, hFab, hSen, hRet, hSpam⟩ := hr
  simp only [HIBP.typesList, List.mem_cons, List.not_mem_nil, or_false] at hm
  rcases hm with h | h | h | h | h | h | h | h | h | h | h <;>
    (rw [Prod.mk.injEq] at h; obtain ⟨h1, h2⟩ := h; subst h1; subst h2) <;>
    simp only [typedValue] <;>
    first
      | exact isDateV_iff.mp (by assumption)
      | exact isBoolV_iff.mp (by assumption)
      | exact isNumV_iff.mp (by assumption)
      | exact isStrV_iff.mp (by assumption)



lemma ofNum_ne_throw (x : Option Int) : CmpResult.ofNum x ≠ CmpResult.throw := by
  cases x <;> simp [CmpResult.ofNum]

lemma parseDirection_num_one : parseDirection (JSDir.num 1) = JSDir.num 1 := by
  decide

/-- How the sort consumes the comparator on well-formed records, as an
iff. -/
lemma le_char {key t : String} (hk : HIBP.types key = some t) {a b : Rec}
    (hta : typedValue t (getProp a key)) (htb : typedValue t (getProp b key)) (d : Int) :
    (cmpResultLE (HIBP.compareFn (some t) key (JSDir.num d) a b) = true)
      ↔ keyBaseCmp t key a b * d ≤ 0 := by
  rw [cmpResultLE_known hk hta htb d]
  simp

lemma hasDataClass_breaches (cs : List String) : ∀ (s : HIBPState),
    (HIBP.hasDataClass s cs).breaches
      = s.breaches.filter (fun r => cs.all (fun c => HIBP.dataClassPred c r)) := by
  induction cs with
  | nil => intro s; simp [HIBP.hasDataClass]
  | cons c cs ih =>
    intro s
    rw [show HIBP.hasDataClass s (c :: cs)
          = HIBP.hasDataClass (HIBP.filter s (HIBP.dataClassPred c)) cs from rfl,
      ih]
    simp only [HIBP.filter, List.filter_filter, List.all_cons]
    apply List.filter_congr
    intro x _
    rw [Bool.and_comm]

lemma hasDataClass_orig (cs : List String) : ∀ (s : HIBPState),
    (HIBP.hasDataClass s cs).origBreaches = s.origBreaches := by
  induction cs with
  | nil => intro s; rfl
  | cons c cs ih =>
    intro s
    exact ih (HIBP.filter s (HIBP.dataClassPred c))

lemma hasDomain_orig (s : HIBPState) (d : Option String) :
    (HIBP.hasDomain s d).origBreaches = s.origBreaches := by
  cases d <;> rfl

lemma applyChainOp_orig (s : HIBPState) (op : ChainOp) :
    (applyChainOp s op).origBreaches = s.origBreaches := by
  cases op <;>
    first
      | rfl
      | exact hasDataClass_orig _ s
      | exact hasDomain_orig s _

lemma applyChain_orig (ops : List ChainOp) : ∀ (s : HIBPState),
    (applyChain s ops).origBreaches = s.origBreaches := by
  induction ops with
  | nil => intro s; rfl
  | cons op ops ih =>
    intro s
    rw [show applyChain s (op :: ops) = applyChain (applyChainOp s op) ops from rfl,
      ih, applyChainOp_orig]

/-! ## Claim theorems -/

/-- C2: for a sort key absent from `HIBP.types`, the comparator
returns the fixed truthy value `true` for every pair of records and
every direction — not a numeric comparison result (so never `0`) and
not an error. -/
theorem unknown_key_comparator_fixed_truthy (key : String)
    (hk : HIBP.types key = none) (dir : JSDir) (a b : Rec) :
    HIBP.compareFn (HIBP.types key) key dir a b = CmpResult.trueVal ∧
    (∀ n : Int, CmpResult.trueVal ≠ CmpResult.ok n) ∧
    CmpResult.trueVal ≠ CmpResult.throw := by
  refine ⟨?_, fun n => by simp, by simp⟩
  rw [hk]
  rfl

/-- C2 witness: `"Title"` is not in the type table; the comparator on
two concrete records returns `true`. -/
theorem unknown_key_comparator_fixed_truthy_witness :
    HIBP.compareFn (HIBP.types "Title") "Title" (JSDir.num 1) breachA breachB
      = CmpResult.trueVal :=
  (unknown_key_comparator_fixed_truthy "Title" (by decide) (JSDir.num 1)
    breachA breachB).1

/-- C3: after any finite chain of filter/sort/pluck/named-filter
calls on a loaded collection, the original snapshot `_origBreaches` is
unchanged, and `reset()` restores the working set to the exact record
sequence captured at load time. -/
theorem orig_snapshot_invariant_reset_restores (data : List Rec) (ops : List ChainOp) :
    (applyChain (HIBP.loadState data) ops).origBreaches = data ∧
    (HIBP.reset (applyChain (HIBP.loadState data) ops)).breaches = data := by
  refine ⟨applyChain_orig ops (HIBP.loadState data), ?_⟩
  show (applyChain (HIBP.loadState data) ops).origBreaches = data
  exact applyChain_orig ops (HIBP.loadState data)

/-- C4: `breaches(0)` and `breaches()` return the whole working set;
for a positive limit `n`, `breaches(n)` is the first `n` records
(clamped to the length). -/
theorem breaches_limit_boundary (s : HIBPState) :
    HIBP.breaches s (some 0) = s.breaches ∧
    HIBP.breaches s = s.breaches ∧
    (∀ n : Int, 0 < n → HIBP.breaches s (some n) = s.breaches.take n.toNat) := by
  refine ⟨by simp [HIBP.breaches, HIBP.jsTruthy], rfl, ?_⟩
  intro n hn
  have h1 : (n != 0) = true := by simp [bne_iff_ne]; omega
  have h2 : ¬ n < 0 := by omega
  simp [HIBP.breaches, HIBP.jsTruthy, h1, HIBP.jsSliceTo, h2]

/-- C4 witness: on a three-record working set, `breaches(2)` is the
first two records. -/
theorem breaches_limit_boundary_witness :
    (0 : Int) < 2 ∧
    HIBP.breaches (HIBP.loadState [breachA, breachB, breachC]) (some 2)
      = [breachA, breachB, breachC].take ((2 : Int)).toNat :=
  ⟨by decide, (breaches_limit_boundary (HIBP.loadState [breachA, breachB, breachC])).2.2
    2 (by decide)⟩

/-- C9: `name()` with no names empties the working set (membership in
the empty name list never holds), rather than being a no-op. -/
theorem name_no_args_empties (s : HIBPState) :
    (HIBP.name s []).breaches = [] := by
  simp only [HIBP.name, HIBP.filter]
  rw [List.filter_eq_nil_iff]
  intro r _
  cases getProp r "Name" <;> simp

/-- C10: a negative limit `n` is truthy and flows into
`slice(0, n)`, so `breaches(n)` returns all records except the last
`|n|` (empty when `|n|` exceeds the length) — not the full working set
and not an error. -/
theorem breaches_negative_limit (s : HIBPState) (n : Int) (hn : n < 0) :
    HIBP.breaches s (some n) = s.breaches.take (s.breaches.length - n.natAbs) := by
  have h1 : (n != 0) = true := by simp [bne_iff_ne]; omega
  simp only [HIBP.breaches, HIBP.jsTruthy, h1, if_pos, Option.getD_some,
    HIBP.jsSliceTo, if_pos hn]
  congr 1
  omega

/-- C10 witness: `breaches(-2)` on a three-record working set keeps
only the first record. -/
theorem breaches_negative_limit_witness :
    (-2 : Int) < 0 ∧
    HIBP.breaches (HIBP.loadState [breachA, breachB, breachC]) (some (-2))
      = [breachA, breachB, breachC].take ([breachA, breachB, breachC].length - ((-2 : Int)).natAbs) :=
  ⟨by decide, breaches_negative_limit (HIBP.loadState [breachA, breachB, breachC]) (-2) (by decide)⟩

/-- C5: `hasDomain` with an argument (including `""`) keeps exactly
the records whose `Domain` equals that argument; with the argument
omitted it keeps exactly the records whose `Domain` is a non-empty
string (given that every record's `Domain` is a string, as the schema
guarantees); and the results of `hasDomain("")` and `hasDomain()` are
disjoint. -/
theorem hasDomain_cases_disjoint (s : HIBPState)
    (hwf : ∀ r ∈ s.breaches, isStrV (getProp r "Domain") = true) :
    (∀ d : String, (HIBP.hasDomain s (some d)).breaches
        = s.breaches.filter (fun r => getProp r "Domain" == JSValue.str d)) ∧
    (HIBP.hasDomain s).breaches = s.breaches.filter domainNonEmpty ∧
    (∀ r, r ∈ (HIBP.hasDomain s (some "")).breaches →
        r ∉ (HIBP.hasDomain s).breaches) := by
  refine ⟨fun d => rfl, ?_, ?_⟩
  · show s.breaches.filter _ = _
    apply List.filter_congr
    intro r hr
    obtain ⟨d, hd⟩ := isStrV_iff.mp (hwf r hr)
    simp only [hd, domainNonEmpty]
    rw [Bool.eq_iff_iff]
    simp [bne_iff_ne]
  · intro r hmem hmem'
    have h1 := (List.mem_filter.mp hmem).2
    have h2 := (List.mem_filter.mp hmem').2
    simp only [beq_iff_eq] at h1
    rw [h1] at h2
    simp at h2

/-- C5 witness: on a mixed fixture, `hasDomain("")` and `hasDomain()`
keep complementary records. -/
theorem hasDomain_cases_disjoint_witness :
    (HIBP.hasDomain (HIBP.loadState [breachA, breachB]) (some "adobe.com")).breaches
      = [breachA, breachB].filter (fun r => getProp r "Domain" == JSValue.str "adobe.com") :=
  (hasDomain_cases_disjoint (HIBP.loadState [breachA, breachB]) (by decide)).1 "adobe.com"

/-- C6: `hasDataClass` keeps exactly the records whose `DataClasses`
sequence contains every requested class — a conjunction across the
requested classes, preserving the records' relative order (stated for
working sets whose `DataClasses` are string arrays, as the schema
guarantees). -/
theorem hasDataClass_conjunction (s : HIBPState) (cs : List String)
    (hwf : ∀ r ∈ s.breaches, isStrListV (getProp r "DataClasses") = true) :
    (HIBP.hasDataClass s cs).breaches
      = s.breaches.filter (fun r => cs.all (fun c => (dcList r).contains c)) := by
  rw [hasDataClass_breaches]
  apply List.filter_congr
  intro r hr
  obtain ⟨l, hl⟩ := isStrListV_iff.mp (hwf r hr)
  congr 1
  funext c
  simp [HIBP.dataClassPred, HIBP.dataClassPredE, dcList, hl]

/-- C6 witness: requesting two classes keeps only the record carrying
both. -/
theorem hasDataClass_conjunction_witness :
    (HIBP.hasDataClass (HIBP.loadState [breachA, breachB, breachC])
        ["names", "job-titles"]).breaches
      = [breachA, breachB, breachC].filter
          (fun r => ["names", "job-titles"].all (fun c => (dcList r).contains c)) :=
  hasDataClass_conjunction (HIBP.loadState [breachA, breachB, breachC])
    ["names", "job-titles"] (by decide)

/-- C8: on well-formed records every comparator the sort can build is
throw-free (in particular the `date` branch, whose `.getTime()` calls
are the only failure point), and the `DataClasses` membership test of
the data-class filter never throws; the remaining filters and `pluck`
are total property accesses.  Hence no filter/sort/pluck raises on
well-formed data. -/
theorem wellformed_no_throw (a b : Rec) (ha : WFRec a) (hb : WFRec b) :
    (∀ (key : String) (dir : JSDir),
        HIBP.compareFn (HIBP.types key) key dir a b ≠ CmpResult.throw) ∧
    (∀ c : String, HIBP.dataClassPredE c a ≠ none) := by
  constructor
  · intro key dir
    cases hk : HIBP.types key with
    | none => simp [HIBP.compareFn]
    | some t =>
      rcases types_t_cases hk with rfl | rfl | rfl | rfl
      · obtain ⟨x, hx⟩ := WFRec_typedValue hk ha
        obtain ⟨y, hy⟩ := WFRec_typedValue hk hb
        simp only [HIBP.compareFn, hx, hy, getTime]
        exact ofNum_ne_throw _
      · simp only [HIBP.compareFn]
        exact ofNum_ne_throw _
      · simp only [HIBP.compareFn]
        exact ofNum_ne_throw _
      · simp only [HIBP.compareFn]
        exact ofNum_ne_throw _
  · intro c
    obtain ⟨l, hl⟩ := isStrListV_iff.mp ha.2.2.2.2.2.2.1
    simp [HIBP.dataClassPredE, hl]

/-- C8 witness: the fixtures are well-formed; the date comparator on
them does not throw. -/
theorem wellformed_no_throw_witness :
    HIBP.compareFn (HIBP.types "AddedDate") "AddedDate" (JSDir.num 1) breachA breachB
      ≠ CmpResult.throw :=
  (wellformed_no_throw breachA breachB (by decide) (by decide)).1 "AddedDate" (JSDir.num 1)

/-- C7: sorting by a key of the type table is stable: for every value
of the sort key, the records holding that value come out of `sort` in
the relative order they had before, for any direction argument
(records with equal key values always compare `0` — or `NaN`, treated
as `0` — so the stable sort keeps their order). -/
theorem sort_known_key_stable (ws orig : List Rec) (key t : String) (dir : JSDir)
    (hk : HIBP.types key = some t) (hwf : ∀ r ∈ ws, WFRec r) (v : JSValue) :
    ((HIBP.sort ⟨ws, orig⟩ key dir).breaches).filter (fun r => getProp r key == v)
      = ws.filter (fun r => getProp r key == v) := by
  rw [sort_breaches_known hk]
  apply jsSort_filter_eq
  intro a ha b hb hpa hpb
  have hva : getProp a key = v := by simpa using hpa
  have hvb : getProp b key = v := by simpa using hpb
  exact cmpResultLE_eq_values hk (WFRec_typedValue hk (hwf a ha))
    (WFRec_typedValue hk (hwf b hb)) (hva.trans hvb.symm) _

/-- C7 witness: `breachB` and `breachC` share a `PwnCount`; after
sorting by it they keep their relative order. -/
theorem sort_known_key_stable_witness :
    ((HIBP.sort ⟨[breachA, breachB, breachC], []⟩ "PwnCount" (JSDir.num 1)).breaches).filter
        (fun r => getProp r "PwnCount" == JSValue.num 655000)
      = [breachA, breachB, breachC].filter
          (fun r => getProp r "PwnCount" == JSValue.num 655000) :=
  sort_known_key_stable [breachA, breachB, breachC] [] "PwnCount" "number"
    (JSDir.num 1) (by decide) (by decide) (JSValue.num 655000)

/-- C1: on a working set whose values at a known key are pairwise
distinct, `sort(key)` followed by `sort("-" + key)` yields exactly the
reverse of the working set after the first sort. -/
theorem sort_asc_then_desc_reversed (s : HIBPState) (key t : String)
    (hk : HIBP.types key = some t) (hwf : ∀ r ∈ s.breaches, WFRec r)
    (hdist : s.breaches.Pairwise (fun a b => getProp a key ≠ getProp b key)) :
    (HIBP.sort (HIBP.sort s key) ("-" ++ key)).breaches
      = ((HIBP.sort s key).breaches).reverse := by
  have htv : ∀ r ∈ s.breaches, typedValue t (getProp r key) :=
    fun r hr => WFRec_typedValue hk (hwf r hr)
  rw [sort_breaches_minus hk, sort_breaches_known hk]
  simp only [parseDirection_num_one]
  generalize hle1 :
    (fun a b => cmpResultLE (HIBP.compareFn (some t) key (JSDir.num 1) a b)) = le1
  generalize hle2 :
    (fun a b => cmpResultLE (HIBP.compareFn (some t) key (JSDir.num (-1)) a b)) = le2
  have happ1 : ∀ a b, le1 a b
      = cmpResultLE (HIBP.compareFn (some t) key (JSDir.num 1) a b) :=
    fun a b => by rw [← hle1]
  have happ2 : ∀ a b, le2 a b
      = cmpResultLE (HIBP.compareFn (some t) key (JSDir.num (-1)) a b) :=
    fun a b => by rw [← hle2]
  have hchar1 : ∀ a ∈ s.breaches, ∀ b ∈ s.breaches,
      (le1 a b = true ↔ keyBaseCmp t key a b ≤ 0) := by
    intro a ha b hb
    rw [happ1, le_char hk (htv a ha) (htv b hb) 1, mul_one]
  have hchar2 : ∀ a ∈ s.breaches, ∀ b ∈ s.breaches,
      (le2 a b = true ↔ 0 ≤ keyBaseCmp t key a b) := by
    intro a ha b hb
    rw [happ2, le_char hk (htv a ha) (htv b hb) (-1)]
    constructor <;> intro h <;> omega
  have hm1 : ∀ x ∈ jsSort le1 s.breaches, x ∈ s.breaches :=
    fun x hx => mem_jsSort.mp hx
  have hPw1 : (jsSort le1 s.breaches).Pairwise (fun x y => le1 x y = true) :=
    jsSort_pairwise le1 s.breaches
      (fun a ha b hb => by
        rw [hchar1 a ha b hb, hchar1 b hb a ha]
        exact keyBaseCmp_total t key a b)
      (fun a ha b hb c hc h1 h2 => by
        rw [hchar1 a ha b hb] at h1
        rw [hchar1 b hb c hc] at h2
        rw [hchar1 a ha c hc]
        exact keyBaseCmp_trans h1 h2)
  have hPw2 : (jsSort le2 (jsSort le1 s.breaches)).Pairwise
      (fun x y => le2 x y = true) :=
    jsSort_pairwise le2 _
      (fun a ha b hb => by
        have ha' := hm1 a ha
        have hb' := hm1 b hb
        rw [hchar2 a ha' b hb', hchar2 b hb' a ha']
        have hs := keyBaseCmp_swap t key a b
        omega)
      (fun a ha b hb c hc h1 h2 => by
        have ha' := hm1 a ha
        have hb' := hm1 b hb
        have hc' := hm1 c hc
        rw [hchar2 a ha' b hb'] at h1
        rw [hchar2 b hb' c hc'] at h2
        rw [hchar2 a ha' c hc']
        have hs1 := keyBaseCmp_swap t key a b
        have hs2 := keyBaseCmp_swap t key b c
        have hs3 := keyBaseCmp_swap t key a c
        have hca := keyBaseCmp_trans
          (show keyBaseCmp t key c b ≤ 0 by omega)
          (show keyBaseCmp t key b a ≤ 0 by omega)
        omega)
  have hPw2' : ((jsSort le1 s.breaches).reverse).Pairwise
      (fun x y => le2 x y = true) := by
    rw [List.pairwise_reverse]
    apply pairwise_imp_mem (r := fun x y => le1 x y = true)
    · intro a ha b hb h
      have ha' := hm1 a ha
      have hb' := hm1 b hb
      rw [hchar1 a ha' b hb'] at h
      rw [hchar2 b hb' a ha']
      have hs := keyBaseCmp_swap t key b a
      omega
    · exact hPw1
  have hvne : ∀ a ∈ s.breaches, ∀ b ∈ s.breaches,
      getProp a key = getProp b key → a = b := by
    intro a ha b hb heq
    by_contra hne
    have hsym : Symmetric (fun x y : Rec => getProp x key ≠ getProp y key) :=
      fun x y h he => h he.symm
    exact List.Pairwise.forall hsym hdist ha hb hne heq
  apply perm_pairwise_eq (r := fun x y => le2 x y = true)
  · exact (jsSort_perm le2 _).trans (List.reverse_perm _).symm
  · exact hPw2
  · exact hPw2'
  · intro a ha b hb h1 h2
    have ha' : a ∈ s.breaches := hm1 a (mem_jsSort.mp ha)
    have hb' : b ∈ s.breaches := hm1 b (mem_jsSort.mp hb)
    rw [hchar2 a ha' b hb'] at h1
    rw [hchar2 b hb' a ha'] at h2
    have hs := keyBaseCmp_swap t key a b
    have h0 : keyBaseCmp t key a b = 0 := by omega
    exact hvne a ha' b hb' (keyBaseCmp_eq_zero hk (htv a ha') (htv b hb') h0)

/-- C1 witness: the fixtures have pairwise distinct `AddedDate`s;
descending sort reverses the ascending sort. -/
theorem sort_asc_then_desc_reversed_witness :
    (HIBP.sort (HIBP.sort (HIBP.loadState [breachB, breachA, breachC]) "AddedDate")
        ("-" ++ "AddedDate")).breaches
      = ((HIBP.sort (HIBP.loadState [breachB, breachA, breachC]) "AddedDate").breaches).reverse :=
  sort_asc_then_desc_reversed (HIBP.loadState [breachB, breachA, breachC])
    "AddedDate" "date" (by decide) (by decide) (by decide)
